import Mathlib

/-!
# Verification of the Turso → NDJSON incremental export engine

Shallow embedding of the repository's extractor (`src/unnamed/part_000`):
cursor-based pagination, per-table NDJSON output, and the JSON checkpoint
store, together with the URL normalizer and the JSON parser backing
`loadCursors`.

Modelling conventions:
* JavaScript scalar values are the inductive `JVal`; JS numbers are modelled
  as integers (`Int`), which covers every value the claims mention (floating
  point is out of scope).  `JVal.objNoValue` stands for a JS object that has
  no `value` property (e.g. the wire cell `{type: "null"}`); it is truthy and
  `Number`-coerces to NaN, like any plain object.
* A wire cell (`Cell`) is either an object carrying a `value` property
  (`Cell.wrapped`) or anything else (`Cell.bare`).
* The network call `tursoExecute` is abstracted as a `fetch` oracle
  `JVal → Except Unit (List Row)`: the cursor parameter in, either the page's
  rows or a fatal error out.  `dbFetch` below instantiates the oracle with a
  concrete sorted table, mirroring the `WHERE cursor > ? ORDER BY cursor
  LIMIT ?` statement built by `buildSelectSql`.
* The filesystem is the explicit state `Fs`: the raw checkpoint file bytes
  and, per output file name, the list of records appended so far.
* Strings manipulated character-wise (`normalizeTursoUrl`, the JSON parser)
  are handled as `List Char`.
-/

namespace PatangExport

/-- Decidable equality for `Except`, so runs of the engine can be evaluated
on concrete inputs. -/
instance instDecEqExcept {ε α : Type} [DecidableEq ε] [DecidableEq α] :
    DecidableEq (Except ε α) := fun x y =>
  match x, y with
  | .error a, .error b =>
    if h : a = b then isTrue (by rw [h]) else isFalse (by simp [h])
  | .error _, .ok _ => isFalse (by simp)
  | .ok _, .error _ => isFalse (by simp)
  | .ok a, .ok b =>
    if h : a = b then isTrue (by rw [h]) else isFalse (by simp [h])

/-- JavaScript scalar values as they occur in this program.  Numbers are
modelled as `Int`; `objNoValue` is an object without a `value` property. -/
inductive JVal where
  | null
  | undefined
  | str (s : String)
  | num (n : Int)
  | bool (b : Bool)
  | objNoValue
deriving DecidableEq, Repr

/-- A cell of a row as returned by the pipeline protocol: either a JS object
with a `value` property (`wrapped`) or any other value (`bare`). -/
inductive Cell where
  | wrapped (v : JVal)
  | bare (v : JVal)
deriving DecidableEq, Repr

abbrev Row := List Cell

/-- JavaScript truthiness for the modelled values. -/
def jvTruthy : JVal → Bool
  | .null => false
  | .undefined => false
  | .str s => !s.isEmpty
  | .num n => decide (n ≠ 0)
  | .bool b => b
  | .objNoValue => true

/-- Whether a character is JavaScript whitespace (the forms `Number` trims). -/
def isJsWs (c : Char) : Bool :=
  c = ' ' || c = '\n' || c = '\t' || c = '\r'

/-- Trim JS whitespace from both ends of a character list. -/
def trimWs (cs : List Char) : List Char :=
  ((cs.dropWhile isJsWs).reverse.dropWhile isJsWs).reverse

/-- Accumulating decimal-digit parser; fails on any non-digit. -/
def parseDigitsAux : List Char → Nat → Option Nat
  | [], acc => some acc
  | c :: cs, acc =>
    if c.isDigit then parseDigitsAux cs (acc * 10 + (c.toNat - 48)) else none

/-- Parse a non-empty all-digit string. -/
def parseDigits : List Char → Option Nat
  | [] => none
  | c :: cs => parseDigitsAux (c :: cs) 0

/-- JS `Number(string)` restricted to the integer grammar: trims whitespace,
an all-whitespace string is `0`, an optional sign followed by digits parses,
anything else is NaN (`none`). -/
def strToNumber (s : String) : Option Int :=
  match trimWs s.toList with
  | [] => some 0
  | '-' :: ds => (parseDigits ds).map (fun n => -(n : Int))
  | '+' :: ds => (parseDigits ds).map (fun n => (n : Int))
  | ds => (parseDigits ds).map (fun n => (n : Int))

/-- JS `Number(value)` on the modelled values; `none` is NaN. -/
def jsNumber : JVal → Option Int
  | .null => some 0
  | .undefined => none
  | .str s => strToNumber s
  | .num n => some n
  | .bool b => some (if b then 1 else 0)
  | .objNoValue => none

/-- Source `ensureNumber(value, fallback)`: null, undefined and the
empty string yield the fallback; otherwise `Number(value)`, with NaN replaced
by the fallback. -/
def ensureNumber (value : JVal) (fallback : Int) : Int :=
  if value = .null ∨ value = .undefined ∨ value = .str "" then fallback
  else
    match jsNumber value with
    | none => fallback
    | some n => n

/-- Source `parseCell(cell)`: an object with a `value` property is unwrapped to that
value, anything else is used as-is. -/
def parseCell : Cell → JVal
  | .wrapped v => v
  | .bare v => v

/-- Reading `row[i]` followed by `parseCell`: out-of-range access yields `undefined`
(and `parseCell(undefined)` is `undefined`). -/
def getCell (row : Row) (i : Nat) : JVal :=
  match row.get? i with
  | some c => parseCell c
  | none => .undefined

/-- A JS object with string keys, as an insertion-ordered association list. -/
abbrev JsObj := List (String × JVal)

/-- The JS membership test `key in obj`. -/
def objHas (m : JsObj) (k : String) : Bool :=
  m.any (fun p => p.1 = k)

/-- The JS read `obj[key]`, with a default for an absent key. -/
def objGetD (m : JsObj) (k : String) (d : JVal) : JVal :=
  match m.find? (fun p => p.1 = k) with
  | some p => p.2
  | none => d

/-- The JS assignment `obj[key] = v`: overwrite the existing entry in place (keeping its
position), otherwise append, as JS object assignment does. -/
def objInsert : JsObj → String → JVal → JsObj
  | [], k, v => [(k, v)]
  | p :: rest, k, v =>
    if p.1 = k then (k, v) :: rest else p :: objInsert rest k v

/-- The insertion-ordered keys of a JS object. -/
def objKeys (m : JsObj) : List String :=
  m.map Prod.fst

/-- A table descriptor from the static `TABLES` registry. -/
structure TableDesc where
  name : String
  columns : List String
  cursorExpr : String
  numericColumns : List String
deriving DecidableEq, Repr

/-- Source `buildSelectSql(table)`. -/
def buildSelectSql (table : TableDesc) : String :=
  "SELECT " ++ String.intercalate ", " table.columns ++ ", " ++
    table.cursorExpr ++ " AS cursor_ts FROM " ++ table.name ++ " WHERE " ++
    table.cursorExpr ++ " > ? ORDER BY " ++ table.cursorExpr ++ " LIMIT ?"

/-- The `for (let i = 0; ...)` loop of `exportTable` that assigns
`mapped[table.columns[i]] = parseCell(row[i])` in column order. -/
def mapRowAux (row : Row) : List String → Nat → JsObj → JsObj
  | [], _, m => m
  | c :: cs, i, m => mapRowAux row cs (i + 1) (objInsert m c (getCell row i))

/-- The positional column-to-cell object built for one row, before numeric
coercion. -/
def mapRowBase (table : TableDesc) (row : Row) : JsObj :=
  mapRowAux row table.columns 0 []

/-- The `for (const key of table.numericColumns)` pass: every listed key
already present is overwritten with `ensureNumber` of its value. -/
def coerceNumeric (numericColumns : List String) (m0 : JsObj) : JsObj :=
  numericColumns.foldl
    (fun m k =>
      if objHas m k then objInsert m k (.num (ensureNumber (objGetD m k .undefined) 0))
      else m)
    m0

/-- The complete record emitted for one row (one NDJSON line, still as an
object rather than serialized text). -/
def buildMapped (table : TableDesc) (row : Row) : JsObj :=
  coerceNumeric table.numericColumns (mapRowBase table row)

/-- All records of one fetched page, in row order. -/
def pageRecs (table : TableDesc) (rows : List Row) : List JsObj :=
  rows.map (buildMapped table)

/-- Source `parseCell(rows[rows.length - 1][table.columns.length])`: the cursor cell
of the last row of a page. -/
def lastCursorOf (table : TableDesc) (rows : List Row) : JVal :=
  match rows.getLast? with
  | some row => getCell row table.columns.length
  | none => .undefined

/-- Source `if (lastCursor) cursor = lastCursor`: the in-memory watermark after a
non-empty page. -/
def nextCursor (table : TableDesc) (cursor : JVal) (rows : List Row) : JVal :=
  let lastCursor := lastCursorOf table rows
  if jvTruthy lastCursor then lastCursor else cursor

/-- The filesystem state: raw checkpoint file bytes (`none` = absent) and,
per output file name, the records appended so far. -/
structure Fs where
  cursorFile : Option String
  outFiles : List (String × List JsObj)
deriving DecidableEq, Repr

/-- Source `if (fs.existsSync(outFile)) fs.unlinkSync(outFile)`. -/
def fsDeleteOut (fs : Fs) (name : String) : Fs :=
  { fs with outFiles := fs.outFiles.filter (fun p => p.1 ≠ name) }

/-- Source `fs.appendFileSync(outFile, ndjson + newline)`: append the page's records to
the named file, creating it when absent. -/
def fsAppendOut (fs : Fs) (name : String) (recs : List JsObj) : Fs :=
  { fs with outFiles :=
      if fs.outFiles.any (fun p => p.1 = name) then
        fs.outFiles.map (fun p => if p.1 = name then (p.1, p.2 ++ recs) else p)
      else fs.outFiles ++ [(name, recs)] }

/-- The page loop of `exportTable` (`for (let page = 0; page < MAX_PAGES;
...)`), with the remaining iteration budget as fuel.  Returns the filesystem
after the appends performed so far and, unless a fetch failed, the final
in-memory cursor, the `wroteAny` flag, and the total number of fetches
performed (the source's final `page` count). -/
def exportLoop (fetch : JVal → Except Unit (List Row)) (table : TableDesc)
    (batchSize : Nat) :
    Nat → JVal → Bool → Nat → Fs → Fs × Except Unit (JVal × Bool × Nat)
  | 0, cursor, wroteAny, fetches, fs => (fs, .ok (cursor, wroteAny, fetches))
  | fuel + 1, cursor, wroteAny, fetches, fs =>
    match fetch cursor with
    | .error e => (fs, .error e)
    | .ok rows =>
      if rows.isEmpty then (fs, .ok (cursor, wroteAny, fetches + 1))
      else
        let fs' := fsAppendOut fs table.name (pageRecs table rows)
        let cursor' := nextCursor table cursor rows
        if rows.length < batchSize then (fs', .ok (cursor', true, fetches + 1))
        else exportLoop fetch table batchSize fuel cursor' true (fetches + 1) fs'

/-- The environment-derived configuration the engine reads (`BATCH_SIZE`,
`MAX_PAGES`, `DEFAULT_CURSOR`). -/
structure Config where
  batchSize : Nat
  maxPages : Nat
  defaultCursor : String
deriving DecidableEq, Repr

/-- Source `cursors[cursorKey] || DEFAULT_CURSOR`: the watermark `exportTable`
starts from (an absent key reads as `undefined`, and any falsy stored value
falls back to the default). -/
def initialCursor (cfg : Config) (cursors : JsObj) (name : String) : JVal :=
  let stored := objGetD cursors name .undefined
  if jvTruthy stored then stored else .str cfg.defaultCursor

/-- Source `exportTable(table, cursors)`: delete the stale output file, run the page
loop from the checkpointed watermark, and on success write the final cursor
back into the in-memory map only when at least one page was written. -/
def exportTable (fetch : JVal → Except Unit (List Row)) (cfg : Config)
    (table : TableDesc) (fs : Fs) (cursors : JsObj) :
    Fs × Except Unit JsObj :=
  let cursor0 := initialCursor cfg cursors table.name
  let fs1 := fsDeleteOut fs table.name
  match exportLoop fetch table cfg.batchSize cfg.maxPages cursor0 false 0 fs1 with
  | (fs2, .error e) => (fs2, .error e)
  | (fs2, .ok (cursor, wroteAny, _)) =>
    (fs2, .ok (if wroteAny then objInsert cursors table.name cursor else cursors))

/-- The `for (const table of TABLES) await exportTable(table, cursors)` loop
of `main`: sequential per-table extraction threading the shared cursor map;
the first error aborts the remaining tables. -/
def runTables (fetch : String → JVal → Except Unit (List Row)) (cfg : Config) :
    List TableDesc → Fs → JsObj → Fs × Except Unit JsObj
  | [], fs, cursors => (fs, .ok cursors)
  | table :: rest, fs, cursors =>
    match exportTable (fetch table.name) cfg table fs cursors with
    | (fs', .error e) => (fs', .error e)
    | (fs', .ok cursors') => runTables fetch cfg rest fs' cursors'

/-- One escaped character inside a JSON string literal. -/
def jsonUnescape (c : Char) : Option Char :=
  if c = Char.ofNat 34 then some (Char.ofNat 34)
  else if c = Char.ofNat 92 then some (Char.ofNat 92)
  else if c = '/' then some '/'
  else if c = 'n' then some '\n'
  else if c = 't' then some '\t'
  else if c = 'r' then some '\r'
  else none

/-- Parse the body of a JSON string literal (opening quote already consumed):
returns the content and the remaining input.  Supports the escapes
`saveCursors` can emit. -/
def parseJStringAux : List Char → Option (List Char × List Char)
  | [] => none
  | c :: rest =>
    if c = Char.ofNat 34 then some ([], rest)
    else if c = Char.ofNat 92 then
      match rest with
      | [] => none
      | e :: rest' =>
        match jsonUnescape e with
        | none => none
        | some d =>
          match parseJStringAux rest' with
          | none => none
          | some (content, rem) => some (d :: content, rem)
    else
      match parseJStringAux rest with
      | none => none
      | some (content, rem) => some (c :: content, rem)

/-- Skip JSON whitespace. -/
def skipWs (cs : List Char) : List Char :=
  cs.dropWhile isJsWs

/-- Parse one JSON scalar value (string, integer, `true`, `false`, `null`);
the checkpoint file only ever holds scalars. -/
def parseJScalar : List Char → Option (JVal × List Char)
  | [] => none
  | c :: rest =>
    if c = Char.ofNat 34 then
      match parseJStringAux rest with
      | none => none
      | some (content, rem) => some (.str (String.mk content), rem)
    else if c = '-' then
      match rest.span Char.isDigit with
      | (ds, rem) =>
        match parseDigits ds with
        | none => none
        | some n => some (.num (-(n : Int)), rem)
    else if c.isDigit then
      match (c :: rest).span Char.isDigit with
      | (ds, rem) =>
        match parseDigits ds with
        | none => none
        | some n => some (.num (n : Int), rem)
    else if c = 't' then
      match rest with
      | 'r' :: 'u' :: 'e' :: rem => some (.bool true, rem)
      | _ => none
    else if c = 'f' then
      match rest with
      | 'a' :: 'l' :: 's' :: 'e' :: rem => some (.bool false, rem)
      | _ => none
    else if c = 'n' then
      match rest with
      | 'u' :: 'l' :: 'l' :: rem => some (.null, rem)
      | _ => none
    else none

/-- Parse the members of a JSON object after the opening brace, accumulating
into a JS object (duplicate keys: last assignment wins, as in `JSON.parse`).
Fuel bounds the recursion by the input length. -/
def parseJMembers : Nat → List Char → JsObj → Option (JsObj × List Char)
  | 0, _, _ => none
  | fuel + 1, cs, acc =>
    match skipWs cs with
    | [] => none
    | c :: rest =>
      if c = Char.ofNat 34 then
        match parseJStringAux rest with
        | none => none
        | some (key, rem1) =>
          match skipWs rem1 with
          | ':' :: rem2 =>
            match parseJScalar (skipWs rem2) with
            | none => none
            | some (v, rem3) =>
              let acc' := objInsert acc (String.mk key) v
              match skipWs rem3 with
              | ',' :: rem4 => parseJMembers fuel rem4 acc'
              | d :: rem4 =>
                if d = Char.ofNat 125 then some (acc', rem4) else none
              | [] => none
          | _ => none
      else none

/-- Model of `JSON.parse` restricted to the grammar the checkpoint store uses: one
object mapping string keys to scalar values. -/
def jsonParseCursors (s : String) : Option JsObj :=
  let cs := s.toList
  match skipWs cs with
  | c :: rest =>
    if c = Char.ofNat 123 then
      match skipWs rest with
      | d :: rest' =>
        if d = Char.ofNat 125 then
          if (skipWs rest').isEmpty then some [] else none
        else
          match parseJMembers (cs.length + 1) (skipWs rest) [] with
          | none => none
          | some (obj, rem) => if (skipWs rem).isEmpty then some obj else none
      | [] => none
    else none
  | [] => none

/-- Source `loadCursors()`: read the checkpoint file and `JSON.parse` it; an absent
file (read throws) or unparsable content yields the empty mapping via the
`catch` branch. -/
def loadCursors (file : Option String) : JsObj :=
  match file with
  | none => []
  | some raw =>
    match jsonParseCursors raw with
    | some m => m
    | none => []

/-- Escape a string for inclusion in a JSON string literal. -/
def jsonEscape (s : String) : String :=
  String.mk (s.toList.flatMap (fun c =>
    if c = Char.ofNat 34 then [Char.ofNat 92, Char.ofNat 34]
    else if c = Char.ofNat 92 then [Char.ofNat 92, Char.ofNat 92]
    else if c = '\n' then [Char.ofNat 92, 'n']
    else if c = '\t' then [Char.ofNat 92, 't']
    else if c = '\r' then [Char.ofNat 92, 'r']
    else [c]))

/-- Model of `JSON.stringify` of one scalar cursor value (`objNoValue` is rendered as
an empty object, approximating the payload-free object of the model). -/
def serializeJVal : JVal → String
  | .null => "null"
  | .undefined => "null"
  | .str s => String.mk [Char.ofNat 34] ++ jsonEscape s ++ String.mk [Char.ofNat 34]
  | .num n => toString n
  | .bool b => if b then "true" else "false"
  | .objNoValue => String.mk [Char.ofNat 123, Char.ofNat 125]

/-- Model of `JSON.stringify(cursors, null, 2)`: pretty-printed object, one member per
line, two-space indent; keys with `undefined` values are omitted. -/
def serializeCursors (m : JsObj) : String :=
  let entries := m.filter (fun p => p.2 ≠ JVal.undefined)
  if entries.isEmpty then String.mk [Char.ofNat 123, Char.ofNat 125]
  else
    String.mk [Char.ofNat 123, '\n'] ++
      String.intercalate ",\n"
        (entries.map (fun p =>
          "  " ++ String.mk [Char.ofNat 34] ++ jsonEscape p.1 ++
            String.mk [Char.ofNat 34] ++ ": " ++ serializeJVal p.2)) ++
      String.mk ['\n', Char.ofNat 125]

/-- Source `saveCursors(cursors)`: whole-file rewrite of the checkpoint file. -/
def saveCursors (fs : Fs) (cursors : JsObj) : Fs :=
  { fs with cursorFile := some (serializeCursors cursors) }

/-- Source `main()`: load the checkpoint map, extract every table sequentially, and
persist the updated map once at the end; any table failure aborts before the
save (the promise rejection exits the process). -/
def runMain (fetch : String → JVal → Except Unit (List Row)) (cfg : Config)
    (tables : List TableDesc) (fs : Fs) : Fs × Except Unit JsObj :=
  let cursors := loadCursors fs.cursorFile
  match runTables fetch cfg tables fs cursors with
  | (fs', .error e) => (fs', .error e)
  | (fs', .ok cursors') => (saveCursors fs' cursors', .ok cursors')

/-- The static `TABLES` registry. -/
def TABLES : List TableDesc :=
  [ { name := "analytics_events"
      columns := ["id", "user_id", "session_id", "event_type", "event_data", "created_at"]
      cursorExpr := "created_at"
      numericColumns := [] },
    { name := "level_analytics"
      columns := ["id", "session_id", "level_number", "kites_cut", "play_time_seconds",
                  "outcome", "started_at", "ended_at"]
      cursorExpr := "started_at"
      numericColumns := ["level_number", "kites_cut", "play_time_seconds"] },
    { name := "events"
      columns := ["id", "user_id", "session_id", "event_type", "event_data",
                  "created_at", "deleted_at"]
      cursorExpr := "created_at"
      numericColumns := [] },
    { name := "level_results"
      columns := ["id", "session_id", "level_number", "started_at", "ended_at",
                  "kites_cut", "enemies_at_start", "outcome", "play_time_seconds",
                  "deleted_at"]
      cursorExpr := "started_at"
      numericColumns := ["level_number", "kites_cut", "enemies_at_start", "play_time_seconds"] },
    { name := "users"
      columns := ["id", "display_name", "is_anonymous", "created_at", "updated_at",
                  "total_games", "total_wins", "highest_level", "deleted_at", "email",
                  "avatar_url", "auth_provider", "coins", "experience_points", "level",
                  "highest_level_reached", "total_play_time_seconds", "last_platform",
                  "fcm_token", "last_login_at", "total_kites_cut"]
      cursorExpr := "COALESCE(updated_at, created_at)"
      numericColumns := ["is_anonymous", "total_games", "total_wins", "highest_level",
                         "coins", "experience_points", "level", "highest_level_reached",
                         "total_play_time_seconds", "total_kites_cut"] },
    { name := "game_sessions"
      columns := ["id", "user_id", "started_at", "ended_at", "final_level",
                  "total_kites_cut", "total_play_time_seconds", "outcome", "deleted_at",
                  "rewarded_kites_cut", "rewarded_play_time_seconds", "updated_at",
                  "total_games_rewarded", "rewarded_final_level"]
      cursorExpr := "COALESCE(updated_at, started_at)"
      numericColumns := ["final_level", "total_kites_cut", "total_play_time_seconds",
                         "rewarded_kites_cut", "rewarded_play_time_seconds",
                         "total_games_rewarded", "rewarded_final_level"] },
    { name := "leaderboard"
      columns := ["user_id", "display_name", "highest_level", "total_kites_cut",
                  "best_time_seconds", "updated_at"]
      cursorExpr := "updated_at"
      numericColumns := ["highest_level", "total_kites_cut", "best_time_seconds"] } ]

/-- JS `s.startsWith(p)` on character lists. -/
def startsWithL (p s : List Char) : Bool :=
  decide (s.take p.length = p)

/-- JS `s.endsWith(p)` on character lists. -/
def endsWithL (p s : List Char) : Bool :=
  decide (p.length ≤ s.length) && decide (s.drop (s.length - p.length) = p)

/-- JS `String.prototype.replace` with a plain-string pattern: replace the
first occurrence of `pat` (scanning left to right), or return the input
unchanged when it does not occur. -/
def replaceFirstL (s pat repl : List Char) : List Char :=
  match s with
  | [] => []
  | c :: rest =>
    if startsWithL pat (c :: rest) then repl ++ (c :: rest).drop pat.length
    else c :: replaceFirstL rest pat repl

/-- Source `url.replace` of a trailing-slash pattern: drop one trailing slash when present. -/
def stripTrailingSlash (s : List Char) : List Char :=
  if endsWithL ['/'] s then s.take (s.length - 1) else s

def libsqlScheme : List Char := "libsql://".toList

def httpsScheme : List Char := "https://".toList

def pipelineSuffix : List Char := "/v2/pipeline".toList

/-- Source `normalizeTursoUrl(url)`: rewrite a `libsql://` scheme to `https://` and
ensure the `/v2/pipeline` suffix (stripping one trailing slash first). -/
def normalizeTursoUrl (url : List Char) : List Char :=
  let n1 :=
    if startsWithL libsqlScheme url then replaceFirstL url libsqlScheme httpsScheme
    else url
  if endsWithL pipelineSuffix n1 then n1
  else stripTrailingSlash n1 ++ pipelineSuffix

/-- Strict comparison of two cursor cell values, as the remote SQL engine
orders the integer-keyed tables used to model pagination. -/
def cellKeyLt : JVal → JVal → Bool
  | .num a, .num b => decide (a < b)
  | _, _ => false

/-- The cursor cell (`cursor_ts`, appended after the selected columns) of a
row. -/
def rowCursor (table : TableDesc) (r : Row) : JVal :=
  getCell r table.columns.length

/-- A concrete remote database for one table: `db` is the table's rows sorted
ascending by cursor value, and each page query returns the rows strictly
beyond the cursor parameter, limited to the batch size — exactly the
statement `buildSelectSql` issues. -/
def dbFetch (table : TableDesc) (batchSize : Nat) (db : List Row) (c : JVal) :
    Except Unit (List Row) :=
  .ok ((db.filter (fun r => cellKeyLt c (rowCursor table r))).take batchSize)

/-! ### Concrete fixtures used to evaluate the engine on closed inputs -/

/-- A minimal one-column table used to exercise the page loop. -/
def tTable : TableDesc :=
  { name := "t", columns := ["id"], cursorExpr := "ts", numericColumns := [] }

/-- A row of `tTable` with integer id and cursor value `k`. -/
def tRow (k : Int) : Row :=
  [Cell.bare (.num k), Cell.wrapped (.num k)]

/-- Four pending rows of `tTable`, sorted ascending by cursor. -/
def tDb : List Row :=
  [tRow 1, tRow 2, tRow 3, tRow 4]

/-- A two-column table with one numeric column, to exercise coercion. -/
def nTable : TableDesc :=
  { name := "n", columns := ["id", "kites_cut"], cursorExpr := "ts",
    numericColumns := ["kites_cut"] }

/-! ## Lemmas about JS object assignment -/

theorem objHas_cons (q : String × JVal) (l : JsObj) (k : String) :
    objHas (q :: l) k = (decide (q.1 = k) || objHas l k) := rfl

theorem objKeys_cons (q : String × JVal) (l : JsObj) :
    objKeys (q :: l) = q.1 :: objKeys l := rfl

theorem objGetD_objInsert_self (m : JsObj) (k : String) (v d : JVal) :
    objGetD (objInsert m k v) k d = v := by
  induction m with
  | nil =>
    show objGetD [(k, v)] k d = v
    simp [objGetD, List.find?]
  | cons p rest ih =>
    by_cases hp : p.1 = k
    · rw [objInsert, if_pos hp]
      show objGetD ((k, v) :: rest) k d = v
      simp [objGetD, List.find?]
    · rw [objInsert, if_neg hp]
      show objGetD (p :: objInsert rest k v) k d = v
      unfold objGetD
      rw [List.find?_cons_of_neg _ (by simpa using hp)]
      exact ih

theorem objGetD_objInsert_ne (m : JsObj) (k : String) (v : JVal) (k' : String)
    (d : JVal) (h : k' ≠ k) :
    objGetD (objInsert m k v) k' d = objGetD m k' d := by
  have hk : ¬(k = k') := fun hh => h hh.symm
  induction m with
  | nil =>
    show objGetD [(k, v)] k' d = objGetD [] k' d
    simp [objGetD, List.find?, hk]
  | cons p rest ih =>
    by_cases hp : p.1 = k
    · rw [objInsert, if_pos hp]
      show objGetD ((k, v) :: rest) k' d = objGetD (p :: rest) k' d
      unfold objGetD
      rw [List.find?_cons_of_neg _ (by simpa using hk),
        List.find?_cons_of_neg _ (by rw [hp]; simpa using hk)]
    · rw [objInsert, if_neg hp]
      show objGetD (p :: objInsert rest k v) k' d = objGetD (p :: rest) k' d
      by_cases hp' : p.1 = k'
      · unfold objGetD
        rw [List.find?_cons_of_pos _ (by simpa using hp'),
          List.find?_cons_of_pos _ (by simpa using hp')]
      · unfold objGetD
        rw [List.find?_cons_of_neg _ (by simpa using hp'),
          List.find?_cons_of_neg _ (by simpa using hp')]
        exact ih

theorem objHas_objInsert (m : JsObj) (k : String) (v : JVal) (k' : String) :
    objHas (objInsert m k v) k' = (objHas m k' || decide (k = k')) := by
  induction m with
  | nil => simp [objInsert, objHas]
  | cons p rest ih =>
    by_cases hp : p.1 = k
    · rw [objInsert, if_pos hp]
      rw [objHas_cons, objHas_cons]
      cases hkk : (decide (k = k') : Bool) <;>
        cases hr : objHas rest k' <;>
          simp_all
    · rw [objInsert, if_neg hp]
      rw [objHas_cons, objHas_cons, ih]
      cases h1 : (decide (p.1 = k') : Bool) <;> simp [Bool.or_assoc]

theorem objKeys_objInsert_pos (m : JsObj) (k : String) (v : JVal)
    (h : objHas m k = true) :
    objKeys (objInsert m k v) = objKeys m := by
  induction m with
  | nil => simp [objHas] at h
  | cons p rest ih =>
    by_cases hp : p.1 = k
    · rw [objInsert, if_pos hp, objKeys_cons, objKeys_cons, hp]
    · rw [objHas_cons] at h
      rw [objInsert, if_neg hp, objKeys_cons, objKeys_cons,
        ih (by simpa [hp] using h)]

theorem objKeys_objInsert_neg (m : JsObj) (k : String) (v : JVal)
    (h : objHas m k = false) :
    objKeys (objInsert m k v) = objKeys m ++ [k] := by
  induction m with
  | nil => simp [objInsert, objKeys]
  | cons p rest ih =>
    by_cases hp : p.1 = k
    · rw [objHas_cons] at h
      simp [hp] at h
    · rw [objHas_cons] at h
      rw [objInsert, if_neg hp, objKeys_cons, objKeys_cons,
        ih (by simpa [hp] using h)]
      rfl

/-! ## Lemmas about the numeric-coercion pass -/

theorem ensureNumber_num (n : Int) : ensureNumber (.num n) 0 = n := by
  simp [ensureNumber, jsNumber]

theorem coerceNumeric_cons (k0 : String) (l : List String) (m : JsObj) :
    coerceNumeric (k0 :: l) m =
      coerceNumeric l
        (if objHas m k0 then
          objInsert m k0 (.num (ensureNumber (objGetD m k0 .undefined) 0))
        else m) := rfl

theorem objHas_coerceNumeric (l : List String) (m : JsObj) (k : String) :
    objHas (coerceNumeric l m) k = objHas m k := by
  induction l generalizing m with
  | nil => rfl
  | cons k0 l' ih =>
    rw [coerceNumeric_cons]
    by_cases h : objHas m k0
    · rw [if_pos h, ih, objHas_objInsert]
      by_cases hk : k0 = k
      · simp [hk, hk ▸ h]
      · simp [hk]
    · rw [if_neg h, ih]

theorem objGetD_coerceNumeric_not_mem (l : List String) (m : JsObj)
    (k : String) (d : JVal) (h : k ∉ l) :
    objGetD (coerceNumeric l m) k d = objGetD m k d := by
  induction l generalizing m with
  | nil => rfl
  | cons k0 l' ih =>
    rw [coerceNumeric_cons]
    have hk : k ≠ k0 := fun hh => h (hh ▸ List.mem_cons_self k0 l')
    have hl : k ∉ l' := fun hh => h (List.mem_cons_of_mem _ hh)
    by_cases h0 : objHas m k0
    · rw [if_pos h0, ih _ hl, objGetD_objInsert_ne _ _ _ _ _ hk]
    · rw [if_neg h0, ih _ hl]

theorem objGetD_coerceNumeric_mem (l : List String) (m : JsObj) (k : String)
    (hmem : k ∈ l) (hhas : objHas m k = true) :
    objGetD (coerceNumeric l m) k .undefined =
      .num (ensureNumber (objGetD m k .undefined) 0) := by
  induction l generalizing m with
  | nil => cases hmem
  | cons k0 l' ih =>
    rw [coerceNumeric_cons]
    by_cases hk : k = k0
    · subst hk
      rw [if_pos hhas]
      by_cases hmem' : k ∈ l'
      · rw [ih _ hmem' (by rw [objHas_objInsert]; simp),
          objGetD_objInsert_self, ensureNumber_num]
      · rw [objGetD_coerceNumeric_not_mem _ _ _ _ hmem', objGetD_objInsert_self]
    · have hmem' : k ∈ l' := by
        rcases List.mem_cons.mp hmem with h | h
        · exact absurd h hk
        · exact h
      by_cases h0 : objHas m k0
      · rw [if_pos h0,
          ih _ hmem' (by rw [objHas_objInsert, hhas]; rfl),
          objGetD_objInsert_ne _ _ _ _ _ hk]
      · rw [if_neg h0, ih _ hmem' hhas]

/-- C3.  Numeric coercion: for every cell of a column listed in a table's
`numericColumns`, the value written to the output record is a number, namely
`ensureNumber` of the positionally mapped cell with fallback `0`; any
non-numeric string becomes `0`, the string `"42"` becomes the number `42`,
and `null`, `undefined`, and the empty string become `0`.  The coercion is a
total function, so it never raises. -/
theorem spec_numeric_coercion :
    (∀ (table : TableDesc) (row : Row) (k : String),
        k ∈ table.numericColumns → objHas (buildMapped table row) k = true →
        objGetD (buildMapped table row) k .undefined =
          .num (ensureNumber (objGetD (mapRowBase table row) k .undefined) 0))
    ∧ (∀ s : String, strToNumber s = none → ensureNumber (.str s) 0 = 0)
    ∧ ensureNumber (.str "abc") 0 = 0
    ∧ ensureNumber (.str "42") 0 = 42
    ∧ ensureNumber .null 0 = 0
    ∧ ensureNumber .undefined 0 = 0
    ∧ ensureNumber (.str "") 0 = 0 := by
  refine ⟨?_, ?_, by decide, by decide, by decide, by decide, by decide⟩
  · intro table row k hmem hhas
    have hhas' : objHas (mapRowBase table row) k = true := by
      rw [← objHas_coerceNumeric table.numericColumns (mapRowBase table row) k]
      exact hhas
    exact objGetD_coerceNumeric_mem _ _ _ hmem hhas'
  · intro s h
    by_cases hs : s = ""
    · simp [ensureNumber, hs]
    · simp [ensureNumber, jsNumber, h, hs]

/-- C3 witness: the coercion applied to a concrete row of the fixture table
with a wrapped `"42"` in the numeric column. -/
theorem spec_numeric_coercion_witness :
    objGetD (buildMapped nTable [Cell.bare (.str "a"), Cell.wrapped (.str "42")])
        "kites_cut" .undefined =
      .num (ensureNumber
        (objGetD (mapRowBase nTable [Cell.bare (.str "a"), Cell.wrapped (.str "42")])
          "kites_cut" .undefined) 0) ∧
    ensureNumber (.str "xyz") 0 = 0 := by
  refine ⟨?_, ?_⟩
  · exact spec_numeric_coercion.1 nTable _ "kites_cut" (by decide) (by decide)
  · exact spec_numeric_coercion.2.1 "xyz" (by decide)

/-! ## Lemmas about the positional row mapping -/

theorem objKeys_coerceNumeric (l : List String) (m : JsObj) :
    objKeys (coerceNumeric l m) = objKeys m := by
  induction l generalizing m with
  | nil => rfl
  | cons k0 l' ih =>
    rw [coerceNumeric_cons]
    by_cases h : objHas m k0
    · rw [if_pos h, ih, objKeys_objInsert_pos _ _ _ h]
    · rw [if_neg h, ih]

theorem mapRowAux_keys (row : Row) (cols : List String) :
    ∀ (i : Nat) (m : JsObj), cols.Nodup → (∀ c ∈ cols, objHas m c = false) →
      objKeys (mapRowAux row cols i m) = objKeys m ++ cols := by
  induction cols with
  | nil => intro i m _ _; simp [mapRowAux]
  | cons c cs ih =>
    intro i m hnd hfresh
    rw [mapRowAux]
    have hc : objHas m c = false := hfresh c (List.mem_cons_self c cs)
    have hnd' := (List.nodup_cons.mp hnd).2
    have hcn : c ∉ cs := (List.nodup_cons.mp hnd).1
    rw [ih (i + 1) _ hnd' ?fresh, objKeys_objInsert_neg _ _ _ hc,
      List.append_assoc]
    rfl
    case fresh =>
      intro c' hc'
      rw [objHas_objInsert]
      have h1 : objHas m c' = false := hfresh c' (List.mem_cons_of_mem _ hc')
      have h2 : c ≠ c' := fun hh => hcn (hh ▸ hc')
      simp [h1, h2]

theorem mapRowAux_getD_not_mem (row : Row) (cols : List String) :
    ∀ (i : Nat) (m : JsObj) (k : String) (d : JVal), k ∉ cols →
      objGetD (mapRowAux row cols i m) k d = objGetD m k d := by
  induction cols with
  | nil => intro i m k d _; rfl
  | cons c cs ih =>
    intro i m k d hk
    rw [mapRowAux,
      ih (i + 1) _ _ _ (fun hh => hk (List.mem_cons_of_mem _ hh)),
      objGetD_objInsert_ne _ _ _ _ _
        (fun hh => hk (by rw [hh]; exact List.mem_cons_self c cs))]

theorem mapRowAux_getD_at (row : Row) (cols : List String) :
    ∀ (i : Nat) (m : JsObj) (d : JVal), cols.Nodup →
      ∀ (j : Nat) (hj : j < cols.length),
        objGetD (mapRowAux row cols i m) (cols.get ⟨j, hj⟩) d =
          getCell row (i + j) := by
  induction cols with
  | nil => intro i m d _ j hj; cases (Nat.not_lt_zero j) hj
  | cons c cs ih =>
    intro i m d hnd j hj
    rw [mapRowAux]
    match j with
    | 0 =>
      have hcn : c ∉ cs := (List.nodup_cons.mp hnd).1
      show objGetD (mapRowAux row cs (i + 1) (objInsert m c (getCell row i))) c d = _
      rw [mapRowAux_getD_not_mem row cs (i + 1) _ _ _ hcn,
        objGetD_objInsert_self, Nat.add_zero]
    | j' + 1 =>
      show objGetD (mapRowAux row cs (i + 1) _) (cs.get ⟨j', _⟩) d = _
      rw [ih (i + 1) _ _ (List.nodup_cons.mp hnd).2 j' (Nat.lt_of_succ_lt_succ hj)]
      congr 1
      omega

theorem mapRowAux_congr (row row' : Row) (cols : List String) :
    ∀ (i : Nat) (m : JsObj),
      (∀ j, j < cols.length → getCell row (i + j) = getCell row' (i + j)) →
      mapRowAux row cols i m = mapRowAux row' cols i m := by
  induction cols with
  | nil => intro i m _; rfl
  | cons c cs ih =>
    intro i m hsame
    rw [mapRowAux, mapRowAux]
    have h0 : getCell row i = getCell row' i := by
      have := hsame 0 (Nat.succ_pos _)
      simpa using this
    rw [h0]
    exact ih (i + 1) _ (fun j hj => by
      have h1 := hsame (j + 1) (Nat.succ_lt_succ hj)
      have e : i + (j + 1) = i + 1 + j := by omega
      rwa [e] at h1)

theorem getCell_take (row : Row) (n j : Nat) (hj : j < n) :
    getCell (row.take n) j = getCell row j := by
  unfold getCell
  rw [List.get?_take hj]

/-- C8.  Output record layout: each emitted record's fields are exactly the
table descriptor's columns in descriptor order (for the duplicate-free column
lists the registry uses); each cell is unwrapped to its `value` when wrapped
and used as-is otherwise; and the record depends only on the first
`columns.length` cells of the row, so the appended `cursor_ts` cell at
positional index `columns.length` is never written to the output record. -/
theorem spec_output_record_layout (table : TableDesc) (row : Row)
    (hnd : table.columns.Nodup) :
    objKeys (buildMapped table row) = table.columns
    ∧ buildMapped table row = buildMapped table (row.take table.columns.length)
    ∧ (∀ (j : Nat) (hj : j < table.columns.length),
        table.columns.get ⟨j, hj⟩ ∉ table.numericColumns →
        objGetD (buildMapped table row) (table.columns.get ⟨j, hj⟩) .undefined =
          getCell row j)
    ∧ (∀ v : JVal, parseCell (.wrapped v) = v ∧ parseCell (.bare v) = v) := by
  refine ⟨?_, ?_, ?_, fun v => ⟨rfl, rfl⟩⟩
  · rw [buildMapped, objKeys_coerceNumeric, mapRowBase,
      mapRowAux_keys row table.columns 0 [] hnd (fun c _ => rfl)]
    rfl
  · rw [buildMapped, buildMapped, mapRowBase, mapRowBase,
      mapRowAux_congr row (row.take table.columns.length) table.columns 0 []
        (fun j hj => by
          rw [getCell_take row table.columns.length (0 + j) (by omega)])]
  · intro j hj hnotnum
    rw [buildMapped,
      objGetD_coerceNumeric_not_mem _ _ _ _ hnotnum, mapRowBase,
      mapRowAux_getD_at row table.columns 0 [] .undefined hnd j hj]
    simp

/-- C8 witness: layout of a concrete record of the fixture table, including
independence from the appended cursor cell. -/
theorem spec_output_record_layout_witness :
    objKeys (buildMapped nTable
        [Cell.bare (.str "a"), Cell.wrapped (.num 2), Cell.bare (.num 9)]) =
      nTable.columns
    ∧ buildMapped nTable
        [Cell.bare (.str "a"), Cell.wrapped (.num 2), Cell.bare (.num 9)] =
      buildMapped nTable
        ([Cell.bare (.str "a"), Cell.wrapped (.num 2), Cell.bare (.num 9)].take
          nTable.columns.length) := by
  have h := spec_output_record_layout nTable
    [Cell.bare (.str "a"), Cell.wrapped (.num 2), Cell.bare (.num 9)] (by decide)
  exact ⟨h.1, h.2.1⟩

/-! ## Lemmas about the page loop -/

theorem exportLoop_zero (fetch : JVal → Except Unit (List Row))
    (table : TableDesc) (batchSize : Nat) (cursor : JVal) (w : Bool) (f : Nat)
    (fs : Fs) :
    exportLoop fetch table batchSize 0 cursor w f fs = (fs, .ok (cursor, w, f)) :=
  rfl

/-- C4.  Watermark advancement: after a non-empty page, the in-memory
watermark becomes the cursor value of the last row when that value is truthy
and is left unchanged when it is `null` or the empty string; and when the
last row's cursor is falsy on a full page, the loop keeps re-fetching the
same page with an unchanged watermark until the page-count ceiling (the fuel)
is exhausted. -/
theorem spec_watermark_advancement (table : TableDesc) (batchSize : Nat)
    (fetch : JVal → Except Unit (List Row)) (cursor : JVal) (rows : List Row)
    (h1 : fetch cursor = .ok rows) (h2 : rows ≠ []) :
    ((lastCursorOf table rows = .null ∨ lastCursorOf table rows = .str "") →
        nextCursor table cursor rows = cursor)
    ∧ (jvTruthy (lastCursorOf table rows) = true →
        nextCursor table cursor rows = lastCursorOf table rows)
    ∧ (jvTruthy (lastCursorOf table rows) = false → batchSize ≤ rows.length →
        ∀ (fuel : Nat) (w : Bool) (f : Nat) (fs : Fs),
          exportLoop fetch table batchSize fuel cursor w f fs =
            ((fun x => fsAppendOut x table.name (pageRecs table rows))^[fuel] fs,
              .ok (cursor, w || decide (0 < fuel), f + fuel))) := by
  refine ⟨?_, ?_, ?_⟩
  · rintro (h | h)
    · simp [nextCursor, h, jvTruthy]
    · have he : ("".isEmpty : Bool) = true := rfl
      simp [nextCursor, h, jvTruthy, he]
  · intro h
    simp [nextCursor, h]
  · intro hfalsy hbs fuel
    have hne : rows.isEmpty = false := by
      cases rows with
      | nil => exact absurd rfl h2
      | cons a l => rfl
    have hnc : nextCursor table cursor rows = cursor := by
      simp [nextCursor, hfalsy]
    have hlt : ¬ rows.length < batchSize := Nat.not_lt.mpr hbs
    induction fuel with
    | zero => intro w f fs; simp [exportLoop]
    | succ n ihn =>
      intro w f fs
      rw [exportLoop, h1]
      simp only [hne, Bool.false_eq_true, if_false, hnc, if_neg hlt]
      rw [ihn true (f + 1) (fsAppendOut fs table.name (pageRecs table rows)),
        Function.iterate_succ_apply]
      have harith : f + 1 + n = f + (n + 1) := by omega
      rw [harith]
      cases n <;> simp

/-- C4 witness: one full page whose last cursor cell is the falsy `num 0`
leaves the watermark unchanged and burns one unit of fuel. -/
theorem spec_watermark_advancement_witness :
    exportLoop (fun _ => .ok [[Cell.bare (.num 1), Cell.bare (.num 0)]]) tTable 1
        1 (.str "c") false 0 ⟨none, []⟩ =
      ((fun x => fsAppendOut x tTable.name
          (pageRecs tTable [[Cell.bare (.num 1), Cell.bare (.num 0)]]))^[1]
          ⟨none, []⟩,
        .ok (.str "c", false || decide (0 < 1), 0 + 1)) :=
  (spec_watermark_advancement tTable 1 _ (.str "c")
      [[Cell.bare (.num 1), Cell.bare (.num 0)]] rfl (by decide)).2.2
    (by decide) (by decide) 1 false 0 ⟨none, []⟩

/-- C9.  Falsy-cursor edge: the watermark is left unchanged whenever the last
row's cursor value is any falsy value — including the number `0` and the
boolean `false` — so a table whose pages are always full with a falsy last
cursor never advances its watermark within a run, and its loop stops only by
exhausting the page-count ceiling. -/
theorem spec_falsy_cursor_edge (table : TableDesc) (batchSize : Nat)
    (fetch : JVal → Except Unit (List Row)) (hbs : 0 < batchSize)
    (hall : ∀ c : JVal, ∃ rows, fetch c = .ok rows ∧ rows.length = batchSize ∧
        jvTruthy (lastCursorOf table rows) = false) :
    (∀ (cursor : JVal) (rows : List Row), lastCursorOf table rows = .num 0 →
        nextCursor table cursor rows = cursor)
    ∧ (∀ (cursor : JVal) (rows : List Row), lastCursorOf table rows = .bool false →
        nextCursor table cursor rows = cursor)
    ∧ (∀ (fuel : Nat) (cursor : JVal) (w : Bool) (f : Nat) (fs : Fs),
        ∃ (fs' : Fs) (w' : Bool),
          exportLoop fetch table batchSize fuel cursor w f fs =
            (fs', .ok (cursor, w', f + fuel))) := by
  refine ⟨?_, ?_, ?_⟩
  · intro cursor rows h
    simp [nextCursor, h, jvTruthy]
  · intro cursor rows h
    simp [nextCursor, h, jvTruthy]
  · intro fuel
    induction fuel with
    | zero =>
      intro cursor w f fs
      exact ⟨fs, w, by simp [exportLoop]⟩
    | succ n ihn =>
      intro cursor w f fs
      obtain ⟨rows, hf, hlen, hfal⟩ := hall cursor
      have hne : rows.isEmpty = false := by
        cases rows with
        | nil => rw [List.length_nil] at hlen; omega
        | cons a l => rfl
      have hnc : nextCursor table cursor rows = cursor := by
        simp [nextCursor, hfal]
      have hlt : ¬ rows.length < batchSize := by omega
      obtain ⟨fs', w', hrec⟩ :=
        ihn cursor true (f + 1) (fsAppendOut fs table.name (pageRecs table rows))
      refine ⟨fs', w', ?_⟩
      rw [exportLoop, hf]
      simp only [hne, Bool.false_eq_true, if_false, hnc, if_neg hlt]
      rw [hrec]
      have harith : f + 1 + n = f + (n + 1) := by omega
      rw [harith]

/-- C9 witness: with a constant full page whose last cursor is `num 0`, two
units of fuel give two fetches and the cursor comes back unchanged. -/
theorem spec_falsy_cursor_edge_witness :
    ∃ (fs' : Fs) (w' : Bool),
      exportLoop (fun _ => .ok [[Cell.bare (.num 1), Cell.bare (.num 0)]]) tTable
          1 2 (.num 5) false 0 ⟨none, []⟩ =
        (fs', .ok (.num 5, w', 0 + 2)) :=
  (spec_falsy_cursor_edge tTable 1 _ (by decide)
      (fun c => ⟨[[Cell.bare (.num 1), Cell.bare (.num 0)]], rfl, rfl, by decide⟩)).2.2
    2 (.num 5) false 0 ⟨none, []⟩

/-! ## Cursor monotonicity -/

theorem cellKeyLt_trans (a b c : JVal) (h1 : cellKeyLt a b = true)
    (h2 : cellKeyLt b c = true) : cellKeyLt a c = true := by
  cases a <;> cases b <;> cases c <;> simp_all [cellKeyLt]
  omega

theorem lastCursorOf_mem (table : TableDesc) (rows : List Row) (h : rows ≠ []) :
    ∃ r ∈ rows, lastCursorOf table rows = rowCursor table r := by
  refine ⟨rows.getLast h, List.getLast_mem h, ?_⟩
  rw [lastCursorOf, List.getLast?_eq_getLast rows h]
  rfl

theorem nextCursor_mono (table : TableDesc) (lt : JVal → JVal → Prop)
    (c : JVal) (rows : List Row) (hne : rows ≠ [])
    (hr : ∀ r ∈ rows, lt c (rowCursor table r)) :
    nextCursor table c rows = c ∨ lt c (nextCursor table c rows) := by
  rw [nextCursor]
  by_cases ht : jvTruthy (lastCursorOf table rows) = true
  · obtain ⟨r, hrm, hlast⟩ := lastCursorOf_mem table rows hne
    rw [if_pos ht]
    exact Or.inr (hlast ▸ hr r hrm)
  · rw [if_neg ht]
    exact Or.inl rfl

theorem exportLoop_succ_of_ok (fetch : JVal → Except Unit (List Row))
    (table : TableDesc) (batchSize n : Nat) (c : JVal) (w : Bool) (f : Nat)
    (fs : Fs) (rows : List Row) (hf : fetch c = .ok rows) :
    exportLoop fetch table batchSize (n + 1) c w f fs =
      if rows.isEmpty then (fs, .ok (c, w, f + 1))
      else if rows.length < batchSize then
        (fsAppendOut fs table.name (pageRecs table rows),
          .ok (nextCursor table c rows, true, f + 1))
      else
        exportLoop fetch table batchSize n (nextCursor table c rows) true (f + 1)
          (fsAppendOut fs table.name (pageRecs table rows)) := by
  rw [exportLoop, hf]

theorem exportLoop_succ_of_error (fetch : JVal → Except Unit (List Row))
    (table : TableDesc) (batchSize n : Nat) (c : JVal) (w : Bool) (f : Nat)
    (fs : Fs) (e : Unit) (hf : fetch c = .error e) :
    exportLoop fetch table batchSize (n + 1) c w f fs = (fs, .error e) := by
  rw [exportLoop, hf]

theorem exportLoop_cursor_mono (table : TableDesc) (batchSize : Nat)
    (fetch : JVal → Except Unit (List Row)) (lt : JVal → JVal → Prop)
    (htrans : ∀ a b c, lt a b → lt b c → lt a c)
    (hrows : ∀ c rows, fetch c = .ok rows → ∀ r ∈ rows, lt c (rowCursor table r)) :
    ∀ (fuel : Nat) (c : JVal) (w : Bool) (f : Nat) (fs fs' : Fs) (c' : JVal)
      (w' : Bool) (f' : Nat),
      exportLoop fetch table batchSize fuel c w f fs = (fs', .ok (c', w', f')) →
      c' = c ∨ lt c c' := by
  intro fuel
  induction fuel with
  | zero =>
    intro c w f fs fs' c' w' f' h
    rw [exportLoop_zero] at h
    simp only [Prod.mk.injEq, Except.ok.injEq] at h
    exact Or.inl h.2.1.symm
  | succ n ihn =>
    intro c w f fs fs' c' w' f' h
    cases hf : fetch c with
    | error e =>
      rw [exportLoop_succ_of_error fetch table batchSize n c w f fs e hf] at h
      simp at h
    | ok rows =>
      rw [exportLoop_succ_of_ok fetch table batchSize n c w f fs rows hf] at h
      by_cases hne : rows.isEmpty
      · rw [if_pos hne] at h
        simp only [Prod.mk.injEq, Except.ok.injEq] at h
        exact Or.inl h.2.1.symm
      · rw [if_neg hne] at h
        have hnil : rows ≠ [] := by
          cases rows
          · exact absurd rfl hne
          · exact fun hh => List.noConfusion hh
        have hstep := nextCursor_mono table lt c rows hnil
          (fun r hr => hrows c rows hf r hr)
        by_cases hlen : rows.length < batchSize
        · rw [if_pos hlen] at h
          simp only [Prod.mk.injEq, Except.ok.injEq] at h
          rw [h.2.1] at hstep
          exact hstep
        · rw [if_neg hlen] at h
          have hrec := ihn (nextCursor table c rows) true (f + 1)
            (fsAppendOut fs table.name (pageRecs table rows)) fs' c' w' f' h
          rcases hstep with h1 | h1
          · rw [h1] at hrec
            exact hrec
          · rcases hrec with h2 | h2
            · exact Or.inr (h2 ▸ h1)
            · exact Or.inr (htrans c (nextCursor table c rows) c' h1 h2)

/-- C1.  Forward-only watermark: when every row a page query returns has a
cursor value strictly greater than the query's watermark parameter and each
page is in ascending cursor order, a run of `exportTable` leaves the table's
checkpoint entry greater than or equal (in the given strict order) to its
truthy value before the run; in particular the in-memory cursor never
decreases across page iterations. -/
theorem spec_forward_only_watermark (table : TableDesc) (cfg : Config)
    (fetch : JVal → Except Unit (List Row)) (cursors : JsObj)
    (lt : JVal → JVal → Prop)
    (htrans : ∀ a b c, lt a b → lt b c → lt a c)
    (hrows : ∀ c rows, fetch c = .ok rows → ∀ r ∈ rows, lt c (rowCursor table r))
    (hasc : ∀ c rows, fetch c = .ok rows →
        rows.Pairwise (fun r s => lt (rowCursor table r) (rowCursor table s)))
    (v : JVal) (hstored : objGetD cursors table.name .undefined = v)
    (htruthy : jvTruthy v = true) :
    ∀ (fs fs' : Fs) (cursors' : JsObj),
      exportTable fetch cfg table fs cursors = (fs', .ok cursors') →
      objGetD cursors' table.name .undefined = v ∨
        lt v (objGetD cursors' table.name .undefined) := by
  intro fs fs' cursors' h
  have hic : initialCursor cfg cursors table.name = v := by
    simp [initialCursor, hstored, htruthy]
  rw [exportTable, hic] at h
  cases hl : exportLoop fetch table cfg.batchSize cfg.maxPages v false 0
      (fsDeleteOut fs table.name) with
  | mk fs2 res =>
    rw [hl] at h
    cases res with
    | error e => simp at h
    | ok t =>
      obtain ⟨c, wroteAny, fetches⟩ := t
      simp only [Prod.mk.injEq, Except.ok.injEq] at h
      have hmono := exportLoop_cursor_mono table cfg.batchSize fetch lt htrans
        hrows cfg.maxPages v false 0 (fsDeleteOut fs table.name) fs2 c wroteAny
        fetches hl
      cases wroteAny with
      | false =>
        rw [← h.2]
        simp only [Bool.false_eq_true, if_false]
        exact Or.inl hstored
      | true =>
        rw [← h.2]
        simp only [if_true]
        rw [objGetD_objInsert_self]
        rcases hmono with h1 | h1
        · exact Or.inl h1
        · exact Or.inr h1

theorem dbFetch_rows_gt (table : TableDesc) (batchSize : Nat) (db : List Row)
    (c : JVal) (rows : List Row) (h : dbFetch table batchSize db c = .ok rows) :
    ∀ r ∈ rows, cellKeyLt c (rowCursor table r) = true := by
  rw [dbFetch] at h
  injection h with h1
  intro r hr
  rw [← h1] at hr
  have hr2 : r ∈ db.filter (fun r => cellKeyLt c (rowCursor table r)) :=
    List.mem_of_mem_take hr
  simpa using List.of_mem_filter hr2

theorem dbFetch_pairwise (table : TableDesc) (batchSize : Nat) (db : List Row)
    (R : Row → Row → Prop) (hdb : db.Pairwise R) (c : JVal) (rows : List Row)
    (h : dbFetch table batchSize db c = .ok rows) : rows.Pairwise R := by
  rw [dbFetch] at h
  injection h with h1
  rw [← h1]
  exact hdb.sublist ((List.take_sublist _ _).trans (List.filter_sublist _))

/-- C1 witness: a caught-up concrete table (the stored watermark is a string,
so no row exceeds it and the checkpoint entry is returned unchanged). -/
theorem spec_forward_only_watermark_witness :
    objGetD [("t", JVal.str "2024")] "t" .undefined = .str "2024" ∨
      cellKeyLt (.str "2024") (objGetD [("t", JVal.str "2024")] "t" .undefined) = true :=
  spec_forward_only_watermark tTable ⟨2, 10, "1970"⟩ (dbFetch tTable 2 tDb)
    [("t", .str "2024")] (fun a b => cellKeyLt a b = true)
    cellKeyLt_trans
    (fun c rows h r hr => dbFetch_rows_gt tTable 2 tDb c rows h r hr)
    (fun c rows h => dbFetch_pairwise tTable 2 tDb _ (by decide) c rows h)
    (.str "2024") (by decide) (by decide)
    ⟨none, []⟩ ⟨none, []⟩ [("t", .str "2024")] (by decide)

/-! ## Checkpoint-file preservation -/

theorem fsAppendOut_cursorFile (fs : Fs) (name : String) (recs : List JsObj) :
    (fsAppendOut fs name recs).cursorFile = fs.cursorFile := rfl

theorem fsDeleteOut_cursorFile (fs : Fs) (name : String) :
    (fsDeleteOut fs name).cursorFile = fs.cursorFile := rfl

theorem exportLoop_cursorFile (fetch : JVal → Except Unit (List Row))
    (table : TableDesc) (batchSize : Nat) :
    ∀ (fuel : Nat) (c : JVal) (w : Bool) (f : Nat) (fs : Fs),
      ((exportLoop fetch table batchSize fuel c w f fs).1).cursorFile =
        fs.cursorFile := by
  intro fuel
  induction fuel with
  | zero => intro c w f fs; rfl
  | succ n ihn =>
    intro c w f fs
    cases hf : fetch c with
    | error e => rw [exportLoop_succ_of_error fetch table batchSize n c w f fs e hf]
    | ok rows =>
      rw [exportLoop_succ_of_ok fetch table batchSize n c w f fs rows hf]
      by_cases hne : rows.isEmpty
      · rw [if_pos hne]
      · rw [if_neg hne]
        by_cases hlen : rows.length < batchSize
        · rw [if_pos hlen]
          rfl
        · rw [if_neg hlen, ihn]
          rfl

theorem exportTable_cursorFile (fetch : JVal → Except Unit (List Row))
    (cfg : Config) (table : TableDesc) (fs : Fs) (cursors : JsObj) :
    ((exportTable fetch cfg table fs cursors).1).cursorFile = fs.cursorFile := by
  rw [exportTable]
  cases hl : exportLoop fetch table cfg.batchSize cfg.maxPages
      (initialCursor cfg cursors table.name) false 0 (fsDeleteOut fs table.name) with
  | mk fs2 res =>
    have hfs2 : fs2.cursorFile = fs.cursorFile := by
      have := exportLoop_cursorFile fetch table cfg.batchSize cfg.maxPages
        (initialCursor cfg cursors table.name) false 0 (fsDeleteOut fs table.name)
      rw [hl] at this
      exact this
    cases res with
    | error e => exact hfs2
    | ok t => obtain ⟨c, w, f⟩ := t; exact hfs2

theorem runTables_cursorFile (fetch : String → JVal → Except Unit (List Row))
    (cfg : Config) :
    ∀ (tables : List TableDesc) (fs : Fs) (cursors : JsObj),
      ((runTables fetch cfg tables fs cursors).1).cursorFile = fs.cursorFile := by
  intro tables
  induction tables with
  | nil => intro fs cursors; rfl
  | cons t rest ih =>
    intro fs cursors
    rw [runTables]
    cases he : exportTable (fetch t.name) cfg t fs cursors with
    | mk fs2 res =>
      have hfs2 : fs2.cursorFile = fs.cursorFile := by
        have := exportTable_cursorFile (fetch t.name) cfg t fs cursors
        rw [he] at this
        exact this
      cases res with
      | error e => exact hfs2
      | ok cursors2 => rw [ih fs2 cursors2, hfs2]

/-- C2.  Atomic checkpoint commit: if any table's extraction raises an error,
the run terminates before `saveCursors` is ever called, so the checkpoint
file on disk after a failed run is byte-identical to its state before the
run, for every table including those already processed. -/
theorem spec_atomic_checkpoint_commit
    (fetch : String → JVal → Except Unit (List Row)) (cfg : Config)
    (tables : List TableDesc) (fs : Fs)
    (h : (runMain fetch cfg tables fs).2 = .error ()) :
    ((runMain fetch cfg tables fs).1).cursorFile = fs.cursorFile := by
  rw [runMain] at h ⊢
  cases hr : runTables fetch cfg tables fs (loadCursors fs.cursorFile) with
  | mk fs2 res =>
    cases res with
    | error e =>
      have := runTables_cursorFile fetch cfg tables fs (loadCursors fs.cursorFile)
      rw [hr] at this
      exact this
    | ok cursors2 =>
      rw [hr] at h
      exact Except.noConfusion h

/-- C2 witness: a run whose only table fails on its first fetch leaves the
concrete checkpoint file bytes untouched. -/
theorem spec_atomic_checkpoint_commit_witness :
    ((runMain (fun _ _ => .error ()) ⟨2, 10, "1970"⟩ [tTable]
        ⟨some "cp", []⟩).1).cursorFile = (Fs.mk (some "cp") []).cursorFile :=
  spec_atomic_checkpoint_commit (fun _ _ => .error ()) ⟨2, 10, "1970"⟩ [tTable]
    ⟨some "cp", []⟩ (by decide)

/-- C6.  Zero-row run: the output file is deleted at the start of
`exportTable`, so a run that fetches zero rows leaves the stale file gone and
the checkpoint map exactly as it was before the run. -/
theorem spec_zero_row_run (fetch : JVal → Except Unit (List Row)) (cfg : Config)
    (table : TableDesc) (fs : Fs) (cursors : JsObj)
    (h : fetch (initialCursor cfg cursors table.name) = .ok []) :
    exportTable fetch cfg table fs cursors = (fsDeleteOut fs table.name, .ok cursors) := by
  rw [exportTable]
  cases hm : cfg.maxPages with
  | zero => rfl
  | succ n =>
    rw [exportLoop_succ_of_ok fetch table cfg.batchSize n
      (initialCursor cfg cursors table.name) false 0 (fsDeleteOut fs table.name) [] h]
    simp

/-- C6 witness: a caught-up concrete table: stale output file contents are
removed, the checkpoint entry survives unchanged. -/
theorem spec_zero_row_run_witness :
    exportTable (dbFetch tTable 2 tDb) ⟨2, 10, "1970"⟩ tTable
        ⟨some "cp", [("t", [[("id", .num 99)]])]⟩ [("t", .num 9)] =
      (fsDeleteOut ⟨some "cp", [("t", [[("id", .num 99)]])]⟩ tTable.name,
        .ok [("t", .num 9)]) :=
  spec_zero_row_run (dbFetch tTable 2 tDb) ⟨2, 10, "1970"⟩ tTable
    ⟨some "cp", [("t", [[("id", .num 99)]])]⟩ [("t", .num 9)] (by decide)

/-- C7.  Checkpoint load is never fatal: `loadCursors` returns the parsed
mapping when the checkpoint file exists and parses as JSON, and returns the
empty mapping — it is a total function, so it never raises — when the file is
absent or its content is unparsable. -/
theorem spec_checkpoint_load_never_fatal :
    ∀ file : Option String,
      (file = none → loadCursors file = [])
      ∧ (∀ (s : String) (m : JsObj), file = some s → jsonParseCursors s = some m →
          loadCursors file = m)
      ∧ (∀ s : String, file = some s → jsonParseCursors s = none →
          loadCursors file = []) := by
  intro file
  refine ⟨?_, ?_, ?_⟩
  · intro h
    rw [h]
    rfl
  · intro s m hf hp
    rw [hf, loadCursors, hp]
  · intro s hf hp
    rw [hf, loadCursors, hp]

/-- C7 witness: an absent file, a well-formed pretty-printed checkpoint file,
and a corrupt file, each evaluated concretely. -/
theorem spec_checkpoint_load_never_fatal_witness :
    loadCursors none = []
    ∧ loadCursors (some "\x7b\n  \"users\": \"2024-01-01\"\n\x7d") =
        [("users", .str "2024-01-01")]
    ∧ loadCursors (some "not json") = [] :=
  ⟨(spec_checkpoint_load_never_fatal none).1 rfl,
    (spec_checkpoint_load_never_fatal _).2.1 _ _ rfl (by decide),
    (spec_checkpoint_load_never_fatal _).2.2 _ rfl (by decide)⟩

/-! ## URL normalization -/

theorem startsWithL_take_eq (p s : List Char) (h : startsWithL p s = true) :
    s.take p.length = p := by
  rw [startsWithL] at h
  exact of_decide_eq_true h

theorem startsWithL_of_take (p s : List Char) (h : s.take p.length = p) :
    startsWithL p s = true := by
  rw [startsWithL]
  exact decide_eq_true h

theorem endsWithL_spec (p s : List Char) (h : endsWithL p s = true) :
    p.length ≤ s.length ∧ s.drop (s.length - p.length) = p := by
  rw [endsWithL] at h
  simp only [Bool.and_eq_true, decide_eq_true_eq] at h
  exact h

theorem endsWithL_append (p x : List Char) : endsWithL p (x ++ p) = true := by
  rw [endsWithL]
  have h1 : p.length ≤ (x ++ p).length := by
    rw [List.length_append]
    omega
  have e : (x ++ p).length - p.length = x.length := by
    rw [List.length_append]
    omega
  have h2 : (x ++ p).drop ((x ++ p).length - p.length) = p := by
    rw [e, List.drop_left]
  simp [h1, h2]

theorem replaceFirstL_of_startsWith (s pat repl : List Char) (hpat : pat ≠ [])
    (h : startsWithL pat s = true) :
    replaceFirstL s pat repl = repl ++ s.drop pat.length := by
  cases s with
  | nil =>
    exfalso
    have h1 := startsWithL_take_eq pat [] h
    rw [List.take_nil] at h1
    exact hpat h1.symm
  | cons c rest =>
    rw [replaceFirstL, if_pos h]

theorem startsWithL_libsql_head (s : List Char)
    (h : startsWithL libsqlScheme s = true) : ∃ t, s = 'l' :: t := by
  have h1 := startsWithL_take_eq libsqlScheme s h
  cases s with
  | nil =>
    exfalso
    rw [List.take_nil] at h1
    exact (by decide : libsqlScheme ≠ []) h1.symm
  | cons c t =>
    rw [show libsqlScheme.length = 8 + 1 from rfl, List.take_succ_cons] at h1
    rw [show libsqlScheme = 'l' :: "ibsql://".toList from rfl] at h1
    injection h1 with hc _
    exact ⟨t, by rw [hc]⟩

theorem not_libsql_of_head (c : Char) (t : List Char) (hc : c ≠ 'l') :
    startsWithL libsqlScheme (c :: t) = false := by
  cases h : startsWithL libsqlScheme (c :: t) with
  | false => rfl
  | true =>
    exfalso
    obtain ⟨t', ht⟩ := startsWithL_libsql_head _ h
    injection ht with h1 _
    exact hc h1

theorem stripTrailingSlash_https_head (t : List Char) :
    ∃ s', stripTrailingSlash (httpsScheme ++ t) = 'h' :: s' := by
  rw [stripTrailingSlash]
  by_cases hsl : endsWithL ['/'] (httpsScheme ++ t) = true
  · rw [if_pos hsl]
    have hlen : (httpsScheme ++ t).length = 8 + t.length := by
      rw [List.length_append]
      rfl
    have he : (httpsScheme ++ t).length - 1 = 6 + t.length + 1 := by
      rw [hlen]
      omega
    rw [he, show httpsScheme ++ t = 'h' :: ("ttps://".toList ++ t) from rfl,
      List.take_succ_cons]
    exact ⟨_, rfl⟩
  · rw [if_neg hsl]
    exact ⟨"ttps://".toList ++ t, rfl⟩

theorem startsWithL_append_split (p x y : List Char)
    (h : startsWithL p (x ++ y) = true) :
    (p.length ≤ x.length ∧ startsWithL p x = true) ∨
      (x.length < p.length ∧ x = p.take x.length ∧
        y.take (p.length - x.length) = p.drop x.length) := by
  have h1 : (x ++ y).take p.length = p := startsWithL_take_eq _ _ h
  rw [List.take_append_eq_append_take] at h1
  by_cases hl : p.length ≤ x.length
  · left
    have e : p.length - x.length = 0 := Nat.sub_eq_zero_of_le hl
    rw [e, List.take_zero, List.append_nil] at h1
    exact ⟨hl, startsWithL_of_take _ _ h1⟩
  · right
    push_neg at hl
    have hx : x.take p.length = x := List.take_of_length_le (le_of_lt hl)
    rw [hx] at h1
    refine ⟨hl, ?_, ?_⟩
    · have h3 : p.take x.length = x := by
        conv_lhs => rw [← h1]
        rw [List.take_left]
      exact h3.symm
    · have h3 : p.drop x.length = y.take (p.length - x.length) := by
        conv_lhs => rw [← h1]
        rw [List.drop_left]
      exact h3.symm

theorem libsql_suffix_overlap :
    ∀ L : Nat, L < libsqlScheme.length →
      pipelineSuffix.take (libsqlScheme.length - L) = libsqlScheme.drop L →
      L = 8 := by
  decide

theorem endsWithL_slash_decomp (u : List Char) (h : endsWithL ['/'] u = true) :
    u = u.take (u.length - 1) ++ ['/'] := by
  obtain ⟨h1, h2⟩ := endsWithL_spec ['/'] u h
  have e : (['/'] : List Char).length = 1 := rfl
  rw [e] at h2
  conv_lhs => rw [← List.take_append_drop (u.length - 1) u]
  rw [h2]

theorem normalizeTursoUrl_not_libsql (u : List Char) :
    startsWithL libsqlScheme (normalizeTursoUrl u) = false := by
  by_cases hs : startsWithL libsqlScheme u = true
  · have hrep : replaceFirstL u libsqlScheme httpsScheme =
        httpsScheme ++ u.drop libsqlScheme.length :=
      replaceFirstL_of_startsWith u _ _ (by decide) hs
    simp only [normalizeTursoUrl, hs, if_true, hrep]
    by_cases hend :
        endsWithL pipelineSuffix (httpsScheme ++ u.drop libsqlScheme.length) = true
    · rw [if_pos hend,
        show httpsScheme ++ u.drop libsqlScheme.length =
          'h' :: ("ttps://".toList ++ u.drop libsqlScheme.length) from rfl]
      exact not_libsql_of_head _ _ (by decide)
    · rw [if_neg hend]
      obtain ⟨s', hs'⟩ := stripTrailingSlash_https_head (u.drop libsqlScheme.length)
      rw [hs', List.cons_append]
      exact not_libsql_of_head _ _ (by decide)
  · have hs0 : startsWithL libsqlScheme u = false := by
      cases h : startsWithL libsqlScheme u with
      | false => rfl
      | true => exact absurd h hs
    simp only [normalizeTursoUrl, hs0, Bool.false_eq_true, if_false]
    by_cases hend : endsWithL pipelineSuffix u = true
    · rw [if_pos hend]
      exact hs0
    · rw [if_neg hend]
      cases h : startsWithL libsqlScheme (stripTrailingSlash u ++ pipelineSuffix) with
      | false => rfl
      | true =>
        exfalso
        rcases startsWithL_append_split _ _ _ h with ⟨hlen, hsw⟩ | ⟨hlt, hx, hy⟩
        · rw [stripTrailingSlash] at hsw hlen
          by_cases hsl : endsWithL ['/'] u = true
          · rw [if_pos hsl] at hsw hlen
            have h9 := startsWithL_take_eq _ _ hsw
            rw [List.take_take] at h9
            have hlen' : (u.take (u.length - 1)).length = u.length - 1 := by
              rw [List.length_take]
              omega
            rw [hlen'] at hlen
            have hmin : min libsqlScheme.length (u.length - 1) = libsqlScheme.length := by
              omega
            rw [hmin] at h9
            have : startsWithL libsqlScheme u = true := startsWithL_of_take _ _ h9
            rw [hs0] at this
            exact Bool.noConfusion this
          · rw [if_neg hsl] at hsw
            rw [hs0] at hsw
            exact Bool.noConfusion hsw
        · have hL := libsql_suffix_overlap (stripTrailingSlash u).length hlt hy
          by_cases hsl : endsWithL ['/'] u = true
          · have hu : u = u.take (u.length - 1) ++ ['/'] :=
              endsWithL_slash_decomp u hsl
            rw [hL, show libsqlScheme.take 8 = "libsql:/".toList from rfl,
              stripTrailingSlash, if_pos hsl] at hx
            have hufull : u = "libsql:/".toList ++ ['/'] := by
              conv_lhs => rw [hu]
              rw [hx]
            have htrue : startsWithL libsqlScheme u = true := by
              rw [hufull]
              decide
            rw [hs0] at htrue
            exact Bool.noConfusion htrue
          · rw [hL, show libsqlScheme.take 8 = "libsql:/".toList from rfl,
              stripTrailingSlash, if_neg hsl] at hx
            have : endsWithL ['/'] u = true := by
              rw [hx]
              decide
            exact hsl this

theorem normalizeTursoUrl_endsWith (u : List Char) :
    endsWithL pipelineSuffix (normalizeTursoUrl u) = true := by
  rw [normalizeTursoUrl]
  generalize (if startsWithL libsqlScheme u then
    replaceFirstL u libsqlScheme httpsScheme else u) = n1
  by_cases he : endsWithL pipelineSuffix n1 = true
  · rw [if_pos he]
    exact he
  · rw [if_neg he]
    exact endsWithL_append _ _

theorem normalizeTursoUrl_fixed (s : List Char)
    (h1 : startsWithL libsqlScheme s = false)
    (h2 : endsWithL pipelineSuffix s = true) :
    normalizeTursoUrl s = s := by
  simp only [normalizeTursoUrl, h1, Bool.false_eq_true, if_false, h2, if_true]

/-- C10.  `normalizeTursoUrl` is idempotent: one application always yields a
string that no longer starts with the `libsql://` scheme and that ends with
the `/v2/pipeline` suffix, so a second application changes nothing. -/
theorem spec_url_normalization_idempotent (u : List Char) :
    normalizeTursoUrl (normalizeTursoUrl u) = normalizeTursoUrl u :=
  normalizeTursoUrl_fixed (normalizeTursoUrl u)
    (normalizeTursoUrl_not_libsql u) (normalizeTursoUrl_endsWith u)

/-! ## Pagination termination over a concrete sorted table -/

theorem cellKeyLt_num_false_of_ge (a b : Int) (h : b ≤ a) :
    cellKeyLt (.num a) (.num b) = false := by
  simp [cellKeyLt]
  omega

theorem cellKeyLt_num_elim (a b : Int) (h : cellKeyLt (.num a) (.num b) = true) :
    a < b := by
  simpa [cellKeyLt] using h

theorem exportLoop_fetches_le (fetch : JVal → Except Unit (List Row))
    (table : TableDesc) (batchSize : Nat) :
    ∀ (fuel : Nat) (c : JVal) (w : Bool) (f : Nat) (fs fs' : Fs) (c' : JVal)
      (w' : Bool) (f' : Nat),
      exportLoop fetch table batchSize fuel c w f fs = (fs', .ok (c', w', f')) →
      f' ≤ f + fuel := by
  intro fuel
  induction fuel with
  | zero =>
    intro c w f fs fs' c' w' f' h
    rw [exportLoop_zero] at h
    simp only [Prod.mk.injEq, Except.ok.injEq] at h
    omega
  | succ n ihn =>
    intro c w f fs fs' c' w' f' h
    cases hf : fetch c with
    | error e =>
      rw [exportLoop_succ_of_error fetch table batchSize n c w f fs e hf] at h
      simp at h
    | ok rows =>
      rw [exportLoop_succ_of_ok fetch table batchSize n c w f fs rows hf] at h
      by_cases hne : rows.isEmpty
      · rw [if_pos hne] at h
        simp only [Prod.mk.injEq, Except.ok.injEq] at h
        omega
      · rw [if_neg hne] at h
        by_cases hlen : rows.length < batchSize
        · rw [if_pos hlen] at h
          simp only [Prod.mk.injEq, Except.ok.injEq] at h
          omega
        · rw [if_neg hlen] at h
          have := ihn (nextCursor table c rows) true (f + 1)
            (fsAppendOut fs table.name (pageRecs table rows)) fs' c' w' f' h
          omega

theorem exportLoop_dbFetch_drain (table : TableDesc) (batchSize : Nat)
    (hbs : 0 < batchSize) (db : List Row)
    (hnum : ∀ r ∈ db, ∃ k : Int, rowCursor table r = .num k ∧ k ≠ 0)
    (hsorted : db.Pairwise
      (fun r s => cellKeyLt (rowCursor table r) (rowCursor table s) = true)) :
    ∀ (fuel : Nat) (pre db2 : List Row) (c : JVal) (w : Bool) (f : Nat) (fs : Fs),
      db = pre ++ db2 →
      (∀ r ∈ pre, cellKeyLt c (rowCursor table r) = false) →
      (∀ r ∈ db2, cellKeyLt c (rowCursor table r) = true) →
      db2.length / batchSize < fuel →
      ∃ (fs' : Fs) (c' : JVal) (w' : Bool),
        exportLoop (dbFetch table batchSize db) table batchSize fuel c w f fs =
          (fs', .ok (c', w', f + db2.length / batchSize + 1)) := by
  intro fuel
  induction fuel with
  | zero =>
    intro pre db2 c w f fs _ _ _ hfuel
    exact absurd hfuel (Nat.not_lt_zero _)
  | succ n ihn =>
    intro pre db2 c w f fs hsplit hpre hdb2 hfuel
    have hsorted' : (pre ++ db2).Pairwise
        (fun r s => cellKeyLt (rowCursor table r) (rowCursor table s) = true) := by
      rw [← hsplit]
      exact hsorted
    have hfilter : db.filter (fun r => cellKeyLt c (rowCursor table r)) = db2 := by
      rw [hsplit, List.filter_append]
      have h1 : pre.filter (fun r => cellKeyLt c (rowCursor table r)) = [] :=
        List.filter_eq_nil.mpr (fun a ha => by
          rw [hpre a ha]
          exact Bool.false_ne_true)
      have h2 : db2.filter (fun r => cellKeyLt c (rowCursor table r)) = db2 :=
        List.filter_eq_self.mpr hdb2
      rw [h1, h2, List.nil_append]
    cases db2 with
    | nil =>
      have hf : dbFetch table batchSize db c = .ok [] := by
        rw [dbFetch, hfilter, List.take_nil]
      rw [exportLoop_succ_of_ok (dbFetch table batchSize db) table batchSize n
        c w f fs [] hf]
      refine ⟨fs, c, w, ?_⟩
      rw [List.length_nil, Nat.zero_div]
      simp
    | cons r0 db2t =>
      by_cases hble : batchSize ≤ (r0 :: db2t).length
      · -- full page
        have hf : dbFetch table batchSize db c = .ok ((r0 :: db2t).take batchSize) := by
          rw [dbFetch, hfilter]
        rw [exportLoop_succ_of_ok (dbFetch table batchSize db) table batchSize n
          c w f fs ((r0 :: db2t).take batchSize) hf]
        have hrlen : ((r0 :: db2t).take batchSize).length = batchSize := by
          rw [List.length_take]
          exact Nat.min_eq_left hble
        have hrne : (r0 :: db2t).take batchSize ≠ [] := by
          intro hh
          rw [hh, List.length_nil] at hrlen
          omega
        have hrEmpty : ((r0 :: db2t).take batchSize).isEmpty = false := by
          cases hx : (r0 :: db2t).take batchSize with
          | nil => exact absurd hx hrne
          | cons a l => rfl
        rw [if_neg (by rw [hrEmpty]; exact Bool.false_ne_true),
          if_neg (by rw [hrlen]; exact Nat.lt_irrefl batchSize)]
        have hlastmem : ((r0 :: db2t).take batchSize).getLast hrne ∈
            (r0 :: db2t).take batchSize := List.getLast_mem hrne
        have hlastdb2 : ((r0 :: db2t).take batchSize).getLast hrne ∈ r0 :: db2t :=
          List.mem_of_mem_take hlastmem
        have hlastdb : ((r0 :: db2t).take batchSize).getLast hrne ∈ db := by
          rw [hsplit]
          exact List.mem_append.mpr (Or.inr hlastdb2)
        obtain ⟨kl, hkl, hklne⟩ := hnum _ hlastdb
        have hlastCursor : lastCursorOf table ((r0 :: db2t).take batchSize) =
            rowCursor table (((r0 :: db2t).take batchSize).getLast hrne) := by
          rw [lastCursorOf, List.getLast?_eq_getLast _ hrne]
          rfl
        have hnext : nextCursor table c ((r0 :: db2t).take batchSize) = .num kl := by
          simp only [nextCursor]
          rw [hlastCursor, hkl]
          simp [jvTruthy, hklne]
        rw [hnext]
        -- arithmetic on the remaining length
        have hdlen : ((r0 :: db2t).drop batchSize).length =
            (r0 :: db2t).length - batchSize := List.length_drop _ _
        have hdiv : (r0 :: db2t).length / batchSize =
            ((r0 :: db2t).drop batchSize).length / batchSize + 1 := by
          rw [hdlen]
          have e : (r0 :: db2t).length =
              ((r0 :: db2t).length - batchSize) + batchSize := by omega
          conv_lhs => rw [e]
          rw [Nat.add_div_right _ hbs]
        -- the pairwise structure of db2
        have hpw2 : (r0 :: db2t).Pairwise
            (fun r s => cellKeyLt (rowCursor table r) (rowCursor table s) = true) :=
          (List.pairwise_append.mp hsorted').2.1
        have hpwsplit : ((r0 :: db2t).take batchSize ++ (r0 :: db2t).drop batchSize).Pairwise
            (fun r s => cellKeyLt (rowCursor table r) (rowCursor table s) = true) := by
          rw [List.take_append_drop]
          exact hpw2
        -- hypotheses of the recursive call
        have ha : db = (pre ++ (r0 :: db2t).take batchSize) ++ (r0 :: db2t).drop batchSize := by
          rw [hsplit, List.append_assoc, List.take_append_drop]
        have hb : ∀ r ∈ pre ++ (r0 :: db2t).take batchSize,
            cellKeyLt (JVal.num kl) (rowCursor table r) = false := by
          intro r hr
          have hrdb : r ∈ db := by
            rw [ha]
            exact List.mem_append.mpr (Or.inl hr)
          obtain ⟨kr, hkr, _⟩ := hnum r hrdb
          rw [hkr]
          apply cellKeyLt_num_false_of_ge
          rcases List.mem_append.mp hr with hpre' | hrows'
          · have hp := (List.pairwise_append.mp hsorted').2.2 r hpre' _ hlastdb2
            rw [hkr, hkl] at hp
            exact le_of_lt (cellKeyLt_num_elim _ _ hp)
          · have hpwrows : ((r0 :: db2t).take batchSize).Pairwise
                (fun r s => cellKeyLt (rowCursor table r) (rowCursor table s) = true) :=
              (List.pairwise_append.mp hpwsplit).1
            have hdecomp := List.dropLast_append_getLast hrne
            rw [← hdecomp] at hpwrows hrows'
            rcases List.mem_append.mp hrows' with hdl | hsing
            · have hp := (List.pairwise_append.mp hpwrows).2.2 r hdl _
                (List.mem_singleton_self _)
              rw [hkr, hkl] at hp
              exact le_of_lt (cellKeyLt_num_elim _ _ hp)
            · have heq : r = ((r0 :: db2t).take batchSize).getLast hrne :=
                List.mem_singleton.mp hsing
              rw [heq, hkl] at hkr
              injection hkr with hk
              omega
        have hc : ∀ r ∈ (r0 :: db2t).drop batchSize,
            cellKeyLt (JVal.num kl) (rowCursor table r) = true := by
          intro r hr
          have hp := (List.pairwise_append.mp hpwsplit).2.2 _ hlastmem r hr
          rw [hkl] at hp
          exact hp
        have hd : ((r0 :: db2t).drop batchSize).length / batchSize < n := by
          omega
        obtain ⟨fs', c'', w'', hrec⟩ := ihn (pre ++ (r0 :: db2t).take batchSize)
          ((r0 :: db2t).drop batchSize) (.num kl) true (f + 1)
          (fsAppendOut fs table.name (pageRecs table ((r0 :: db2t).take batchSize)))
          ha hb hc hd
        refine ⟨fs', c'', w'', ?_⟩
        rw [hrec]
        have harith : f + 1 + ((r0 :: db2t).drop batchSize).length / batchSize + 1 =
            f + (r0 :: db2t).length / batchSize + 1 := by omega
        rw [harith]
      · -- short page
        push_neg at hble
        have htake : (r0 :: db2t).take batchSize = r0 :: db2t :=
          List.take_of_length_le (le_of_lt hble)
        have hf : dbFetch table batchSize db c = .ok (r0 :: db2t) := by
          rw [dbFetch, hfilter, htake]
        rw [exportLoop_succ_of_ok (dbFetch table batchSize db) table batchSize n
          c w f fs (r0 :: db2t) hf]
        rw [if_neg (by exact fun hh => Bool.noConfusion hh),
          if_pos hble]
        exact ⟨fsAppendOut fs table.name (pageRecs table (r0 :: db2t)),
          nextCursor table c (r0 :: db2t), true,
          by rw [Nat.div_eq_of_lt hble]⟩

/-- C5.  Pagination termination: over a concrete sorted pending set, the page
loop performs exactly `pending / batchSize + 1` fetches — i.e. `N` full pages
plus one final empty fetch when the pending count is exactly
`N × batchSize`, and `N` full pages plus one final short page otherwise —
and for any fetch oracle whatsoever the loop performs at most `fuel`
(`MAX_PAGES`) fetches, and it always terminates. -/
theorem spec_pagination_termination (table : TableDesc) (batchSize : Nat)
    (db : List Row) (c0 : JVal) (hbs : 0 < batchSize)
    (hnum : ∀ r ∈ db, ∃ k : Int, rowCursor table r = .num k ∧ k ≠ 0)
    (hsorted : db.Pairwise
      (fun r s => cellKeyLt (rowCursor table r) (rowCursor table s) = true))
    (hgt : ∀ r ∈ db, cellKeyLt c0 (rowCursor table r) = true) :
    (∀ (fuel : Nat) (w : Bool) (f : Nat) (fs : Fs), db.length / batchSize < fuel →
        ∃ (fs' : Fs) (c' : JVal) (w' : Bool),
          exportLoop (dbFetch table batchSize db) table batchSize fuel c0 w f fs =
            (fs', .ok (c', w', f + db.length / batchSize + 1)))
    ∧ (∀ N : Nat, db.length = N * batchSize → db.length / batchSize + 1 = N + 1)
    ∧ (∀ N r : Nat, db.length = N * batchSize + r → 0 < r → r < batchSize →
        db.length / batchSize + 1 = N + 1)
    ∧ (∀ (fetch : JVal → Except Unit (List Row)) (fuel : Nat) (c : JVal)
        (w : Bool) (f : Nat) (fs fs' : Fs) (c' : JVal) (w' : Bool) (f' : Nat),
        exportLoop fetch table batchSize fuel c w f fs = (fs', .ok (c', w', f')) →
        f' ≤ f + fuel) := by
  refine ⟨?_, ?_, ?_, ?_⟩
  · intro fuel w f fs hfuel
    exact exportLoop_dbFetch_drain table batchSize hbs db hnum hsorted fuel [] db
      c0 w f fs rfl (fun r hr => absurd hr (List.not_mem_nil r)) hgt hfuel
  · intro N hN
    rw [hN, Nat.mul_div_cancel N hbs]
  · intro N r hN hr0 hrb
    rw [hN]
    rw [Nat.mul_comm N batchSize, Nat.mul_add_div hbs, Nat.div_eq_of_lt hrb]
  · intro fetch fuel c w f fs fs' c' w' f' h
    exact exportLoop_fetches_le fetch table batchSize fuel c w f fs fs' c' w' f' h

/-- C5 witness: four pending rows with batch size two are drained in exactly
two full fetches plus one empty fetch (three fetches total). -/
theorem spec_pagination_termination_witness :
    ∃ (fs' : Fs) (c' : JVal) (w' : Bool),
      exportLoop (dbFetch tTable 2 tDb) tTable 2 5 (.num 0) false 0 ⟨none, []⟩ =
        (fs', .ok (c', w', 3)) :=
  (spec_pagination_termination tTable 2 tDb (.num 0) (by decide)
      (by intro r hr; fin_cases hr <;> exact ⟨_, rfl, by decide⟩)
      (by decide) (by decide)).1 5 false 0 ⟨none, []⟩ (by decide)

end PatangExport
